import Mathlib

/-!
Verification of the byte/long conversion routines of jhdf5
(src/source/c/copyByteLong.c, which instantiates the shared template
copyByteTarget.ctempl with TARGET = jlong, sizeof(TARGET) = 8).

The template file copyByteTarget.ctempl is not part of the source tree
fragment; only the macro wrapper copyByteLong.c is.  The operations are
therefore modelled from the specification (sections 3, 4.1, 4.2 and 7):
a byte buffer is a list of 8-bit unsigned values, a numeric array is a
list of 64-bit values (bit patterns, so a value with the sign bit set is
a natural number at least 2 to the 63rd), offsets and counts arrive as
Java 32-bit signed integers, modelled as Lean integers, bounds are
checked up front, and on success the destination region is overwritten
with the big-endian conversion of the source region.
-/

namespace HDFNativeData

/-- Modelled from the spec: the single error kind of section 7.  The
template signals every bounds violation through one JNI
ArrayIndexOutOfBoundsException; no other failure is produced. -/
inductive CopyError where
  | outOfBounds
deriving DecidableEq

/-- Modelled from the spec (section 4.1 algorithm): big-endian reassembly
of a list of bytes by left-shift-and-or composition, most significant
byte first; every byte is first truncated to its unsigned 8-bit value
(the widening step that prevents sign-extension corruption). -/
def assembleBE (bs : List Nat) : Nat :=
  bs.foldl (fun acc b => acc * 256 + b % 256) 0

/-- Modelled from the spec (section 4.2 algorithm): big-endian
decomposition of a value into w bytes by successive right-shift-and-mask,
most significant byte first. -/
def toBytesBE : Nat → Nat → List Nat
  | 0, _ => []
  | w + 1, v => toBytesBE w (v / 256) ++ [v % 256]

/-- Modelled from the spec (section 4.1 contract): the successful effect
of copyByteToLong on the caller-provided destination array.  Elements
destStart + i for i < len are replaced by the big-endian reassembly of
the 8 source bytes starting at byteStart + i * 8; everything outside
that region is kept. -/
def decodeCore (buf : List Nat) (byteStart : Nat) (dest : List Nat)
    (destStart len : Nat) : List Nat :=
  dest.take destStart
    ++ (List.range len).map (fun i => assembleBE ((buf.drop (byteStart + i * 8)).take 8))
    ++ dest.drop (destStart + len)

/-- Modelled from the spec (section 4.2 contract): the successful effect
of copyLongToByte on the caller-provided destination buffer.  Bytes
byteStart + i * 8 .. byteStart + i * 8 + 7 for i < len are replaced by
the big-endian decomposition of source element arrayStart + i;
everything outside that region is kept. -/
def encodeCore (arr : List Nat) (arrayStart : Nat) (buf : List Nat)
    (byteStart len : Nat) : List Nat :=
  buf.take byteStart
    ++ (((arr.drop arrayStart).take len).map (toBytesBE 8)).flatten
    ++ buf.drop (byteStart + len * 8)

/-- Modelled from the spec (sections 4.1 and 7): the decode operation
Java_ncsa_hdf_hdf5lib_HDFNativeData_copyByteToLong___3BI_3JII.  All
bounds are validated before any write; on violation the destination
array is returned untouched together with the OutOfBounds error. -/
def copyByteToLong (buf : List Nat) (byteStart : Int) (dest : List Nat)
    (destStart len : Int) : Option CopyError × List Nat :=
  if byteStart < 0 ∨ len < 0 ∨ (buf.length : Int) < byteStart + len * 8
      ∨ destStart < 0 ∨ (dest.length : Int) < destStart + len then
    (some CopyError.outOfBounds, dest)
  else
    (none, decodeCore buf byteStart.toNat dest destStart.toNat len.toNat)

/-- Modelled from the spec (sections 4.2 and 7): the encode operation
Java_ncsa_hdf_hdf5lib_HDFNativeData_copyLongToByte___3JI_3BII.  All
bounds are validated before any write; on violation the destination
buffer is returned untouched together with the OutOfBounds error. -/
def copyLongToByte (arr : List Nat) (arrayStart : Int) (buf : List Nat)
    (byteStart len : Int) : Option CopyError × List Nat :=
  if arrayStart < 0 ∨ len < 0 ∨ (arr.length : Int) < arrayStart + len
      ∨ byteStart < 0 ∨ (buf.length : Int) < byteStart + len * 8 then
    (some CopyError.outOfBounds, buf)
  else
    (none, encodeCore arr arrayStart.toNat buf byteStart.toNat len.toNat)

/-- The JNI signatures ...___3BI_3JII and ...___3JI_3BII take every
offset and the element count as a Java int: a 32-bit signed integer. -/
def isJint (n : Int) : Prop := -(2 ^ 31) ≤ n ∧ n < 2 ^ 31

instance (n : Int) : Decidable (isJint n) :=
  inferInstanceAs (Decidable (_ ∧ _))

/-- Two-complement wrap-around of a mathematical integer into the Java
int range, the value a 32-bit signed multiplication produces. -/
def wrap32 (n : Int) : Int := (n + 2 ^ 31) % 2 ^ 32 - 2 ^ 31

/-! ### Basic lemmas about the byte-level conversions -/

theorem assembleBE_append (xs : List Nat) (b : Nat) :
    assembleBE (xs ++ [b]) = assembleBE xs * 256 + b % 256 := by
  simp [assembleBE, List.foldl_append]

theorem length_toBytesBE (w v : Nat) : (toBytesBE w v).length = w := by
  induction w generalizing v with
  | zero => rfl
  | succ w ih => simp [toBytesBE, ih]

theorem toBytesBE_lt (w v : Nat) : ∀ b ∈ toBytesBE w v, b < 256 := by
  induction w generalizing v with
  | zero => simp [toBytesBE]
  | succ w ih =>
    intro b hb
    simp only [toBytesBE, List.mem_append, List.mem_singleton] at hb
    rcases hb with hb | hb
    · exact ih _ _ hb
    · subst hb; exact Nat.mod_lt _ (by norm_num)

theorem assembleBE_toBytesBE (w v : Nat) (hv : v < 256 ^ w) :
    assembleBE (toBytesBE w v) = v := by
  induction w generalizing v with
  | zero =>
    simp [toBytesBE, assembleBE]
    omega
  | succ w ih =>
    have hdiv : v / 256 < 256 ^ w := by
      rw [Nat.div_lt_iff_lt_mul (by norm_num)]
      calc v < 256 ^ (w + 1) := hv
        _ = 256 ^ w * 256 := by ring
    rw [toBytesBE, assembleBE_append, ih _ hdiv]
    omega

theorem toBytesBE_assembleBE (bs : List Nat) (hb : ∀ b ∈ bs, b < 256) :
    toBytesBE bs.length (assembleBE bs) = bs := by
  induction bs using List.reverseRecOn with
  | nil => rfl
  | append_singleton ys b ih =>
    have hblt : b < 256 := hb b (by simp)
    have hys : ∀ x ∈ ys, x < 256 := fun x hx => hb x (by simp [hx])
    rw [assembleBE_append]
    have hlen : (ys ++ [b]).length = ys.length + 1 := by simp
    rw [hlen, toBytesBE]
    have hdiv : (assembleBE ys * 256 + b % 256) / 256 = assembleBE ys := by
      omega
    have hmod : (assembleBE ys * 256 + b % 256) % 256 = b := by
      omega
    rw [hdiv, hmod, ih hys]

theorem assembleBE_lt_aux (bs : List Nat) (acc : Nat) :
    bs.foldl (fun acc b => acc * 256 + b % 256) acc < (acc + 1) * 256 ^ bs.length := by
  induction bs generalizing acc with
  | nil => simp
  | cons b bs ih =>
    calc (b :: bs).foldl (fun acc b => acc * 256 + b % 256) acc
        = bs.foldl (fun acc b => acc * 256 + b % 256) (acc * 256 + b % 256) := rfl
      _ < (acc * 256 + b % 256 + 1) * 256 ^ bs.length := ih _
      _ ≤ ((acc + 1) * 256) * 256 ^ bs.length := by
          have : b % 256 < 256 := Nat.mod_lt _ (by norm_num)
          have : acc * 256 + b % 256 + 1 ≤ (acc + 1) * 256 := by omega
          exact Nat.mul_le_mul_right _ this
      _ = (acc + 1) * 256 ^ (b :: bs).length := by
          simp [List.length_cons]; ring

theorem assembleBE_lt (bs : List Nat) : assembleBE bs < 256 ^ bs.length := by
  have h := assembleBE_lt_aux bs 0
  simpa [assembleBE] using h

/-! ### Structural lemmas about the destination regions -/

theorem length_decodeCore (buf dest : List Nat) (byteStart destStart len : Nat)
    (h : destStart + len ≤ dest.length) :
    (decodeCore buf byteStart dest destStart len).length = dest.length := by
  simp [decodeCore]
  omega

theorem decodeCore_getElem_mid (buf dest : List Nat) (byteStart destStart len i : Nat)
    (h : destStart + len ≤ dest.length) (hi : i < len) :
    (decodeCore buf byteStart dest destStart len)[destStart + i]? =
      some (assembleBE ((buf.drop (byteStart + i * 8)).take 8)) := by
  unfold decodeCore
  rw [List.append_assoc]
  have hlt : (dest.take destStart).length = destStart := by
    simp; omega
  rw [List.getElem?_append_right (by rw [hlt]; omega), hlt]
  have hidx : destStart + i - destStart = i := by omega
  rw [hidx]
  rw [List.getElem?_append_left (by simp [hi])]
  simp [hi]

theorem decodeCore_getElem_frame (buf dest : List Nat) (byteStart destStart len j : Nat)
    (h : destStart + len ≤ dest.length)
    (hj : j < destStart ∨ destStart + len ≤ j) :
    (decodeCore buf byteStart dest destStart len)[j]? = dest[j]? := by
  unfold decodeCore
  rw [List.append_assoc]
  have hlt : (dest.take destStart).length = destStart := by
    simp; omega
  rcases hj with hj | hj
  · rw [List.getElem?_append_left (by rw [hlt]; omega)]
    exact List.getElem?_take_of_lt hj
  · rw [List.getElem?_append_right (by rw [hlt]; omega), hlt]
    have hmaplen :
        (List.map (fun i => assembleBE ((buf.drop (byteStart + i * 8)).take 8))
          (List.range len)).length = len := by simp
    rw [List.getElem?_append_right (by rw [hmaplen]; omega), hmaplen]
    rw [List.getElem?_drop]
    congr 1
    omega

theorem flatten_length_of_blocks (L : List (List Nat)) (h : ∀ l ∈ L, l.length = 8) :
    L.flatten.length = 8 * L.length := by
  induction L with
  | nil => rfl
  | cons l ls ih =>
    have hl : l.length = 8 := h l (by simp)
    have hls : ∀ x ∈ ls, x.length = 8 := fun x hx => h x (by simp [hx])
    simp [hl, ih hls]
    ring

theorem drop_flatten_of_blocks (i : Nat) (L : List (List Nat)) (h : ∀ l ∈ L, l.length = 8) :
    L.flatten.drop (i * 8) = (L.drop i).flatten := by
  induction i generalizing L with
  | zero => simp
  | succ i ih =>
    cases L with
    | nil => simp
    | cons l ls =>
      have hl : l.length = 8 := h l (by simp)
      have hls : ∀ x ∈ ls, x.length = 8 := fun x hx => h x (by simp [hx])
      have harith : (i + 1) * 8 = l.length + i * 8 := by omega
      rw [List.flatten_cons, harith, List.drop_append, ih ls hls]
      simp

theorem length_encodeCore (arr buf : List Nat) (arrayStart byteStart len : Nat)
    (ha : arrayStart + len ≤ arr.length) (hb : byteStart + len * 8 ≤ buf.length) :
    (encodeCore arr arrayStart buf byteStart len).length = buf.length := by
  have hblocks : ∀ l ∈ ((arr.drop arrayStart).take len).map (toBytesBE 8), l.length = 8 := by
    intro l hl
    simp only [List.mem_map] at hl
    rcases hl with ⟨v, _, rfl⟩
    exact length_toBytesBE 8 v
  have hlen : (((arr.drop arrayStart).take len).map (toBytesBE 8)).flatten.length = 8 * len := by
    rw [flatten_length_of_blocks _ hblocks]
    simp
    omega
  unfold encodeCore
  rw [List.length_append, List.length_append, hlen]
  simp
  omega

theorem encodeCore_bytes (arr buf : List Nat) (arrayStart byteStart len i : Nat)
    (ha : arrayStart + len ≤ arr.length) (hb : byteStart + len * 8 ≤ buf.length)
    (hi : i < len) :
    ((encodeCore arr arrayStart buf byteStart len).drop (byteStart + i * 8)).take 8 =
      toBytesBE 8 (arr.getD (arrayStart + i) 0) := by
  unfold encodeCore
  set blocks := ((arr.drop arrayStart).take len).map (toBytesBE 8) with hblocksdef
  have hblocks : ∀ l ∈ blocks, l.length = 8 := by
    intro l hl
    simp only [hblocksdef, List.mem_map] at hl
    rcases hl with ⟨v, _, rfl⟩
    exact length_toBytesBE 8 v
  have hblockslen : blocks.length = len := by
    simp [hblocksdef]
    omega
  have hflatlen : blocks.flatten.length = 8 * len := by
    rw [flatten_length_of_blocks _ hblocks, hblockslen]
  have htake : (buf.take byteStart).length = byteStart := by
    simp; omega
  rw [List.append_assoc]
  rw [show byteStart + i * 8 = (buf.take byteStart).length + i * 8 by rw [htake]]
  rw [List.drop_append]
  rw [List.drop_append_eq_append_drop]
  have hdropflat : blocks.flatten.drop (i * 8) = (blocks.drop i).flatten :=
    drop_flatten_of_blocks i blocks hblocks
  have hiblock : i < blocks.length := by omega
  have hcons : blocks.drop i = blocks[i] :: blocks.drop (i + 1) :=
    List.drop_eq_getElem_cons hiblock
  have hleni : (blocks[i]).length = 8 := hblocks _ (List.getElem_mem hiblock)
  rw [hdropflat, hcons, List.flatten_cons]
  rw [List.append_assoc]
  rw [List.take_append_of_le_length (by rw [hleni])]
  rw [List.take_of_length_le (by rw [hleni])]
  have hgi : blocks[i] = toBytesBE 8 (arr.getD (arrayStart + i) 0) := by
    simp only [hblocksdef]
    rw [List.getElem_map]
    congr 1
    rw [List.getElem_take, List.getElem_drop]
    have hlt : arrayStart + i < arr.length := by omega
    simp [List.getD, List.getElem?_eq_getElem hlt]
  rw [hgi]

theorem encodeCore_getElem_frame (arr buf : List Nat) (arrayStart byteStart len j : Nat)
    (ha : arrayStart + len ≤ arr.length) (hb : byteStart + len * 8 ≤ buf.length)
    (hj : j < byteStart ∨ byteStart + len * 8 ≤ j) :
    (encodeCore arr arrayStart buf byteStart len)[j]? = buf[j]? := by
  unfold encodeCore
  set blocks := ((arr.drop arrayStart).take len).map (toBytesBE 8) with hblocksdef
  have hblocks : ∀ l ∈ blocks, l.length = 8 := by
    intro l hl
    simp only [hblocksdef, List.mem_map] at hl
    rcases hl with ⟨v, _, rfl⟩
    exact length_toBytesBE 8 v
  have hblockslen : blocks.length = len := by
    simp [hblocksdef]
    omega
  have hflatlen : blocks.flatten.length = 8 * len := by
    rw [flatten_length_of_blocks _ hblocks, hblockslen]
  have htake : (buf.take byteStart).length = byteStart := by
    simp; omega
  rw [List.append_assoc]
  rcases hj with hj | hj
  · rw [List.getElem?_append_left (by rw [htake]; omega)]
    exact List.getElem?_take_of_lt hj
  · rw [List.getElem?_append_right (by rw [htake]; omega), htake]
    rw [List.getElem?_append_right (by rw [hflatlen]; omega)]
    rw [hflatlen, List.getElem?_drop]
    congr 1
    omega

/-! ### Windows as explicit byte lists -/

theorem window_eq_map_range (l : List Nat) (s n : Nat) (h : s + n ≤ l.length) :
    (l.drop s).take n = (List.range n).map (fun k => l.getD (s + k) 0) := by
  apply List.ext_getElem
  · simp; omega
  · intro i h1 h2
    have hi : i < n := by simpa using h2
    rw [List.getElem_take, List.getElem_drop, List.getElem_map, List.getElem_range]
    have hlt : s + i < l.length := by omega
    simp [List.getD_eq_getElem?_getD, List.getElem?_eq_getElem hlt]

theorem getD_lt_of_mem_lt (l : List Nat) (m c : Nat) (hl : ∀ b ∈ l, b < c)
    (hm : m < l.length) : l.getD m 0 < c := by
  have := hl (l[m]) (List.getElem_mem hm)
  simpa [List.getD_eq_getElem?_getD, List.getElem?_eq_getElem hm] using this

theorem map_range_getD (l : List Nat) :
    (List.range l.length).map (fun i => l.getD i 0) = l := by
  apply List.ext_getElem
  · simp
  · intro i h1 h2
    rw [List.getElem_map, List.getElem_range]
    simp [List.getD_eq_getElem?_getD, List.getElem?_eq_getElem h2]

theorem assembleBE_eight (b0 b1 b2 b3 b4 b5 b6 b7 : Nat) :
    assembleBE [b0, b1, b2, b3, b4, b5, b6, b7] =
      b0 % 256 * 256 ^ 7 + b1 % 256 * 256 ^ 6 + b2 % 256 * 256 ^ 5 + b3 % 256 * 256 ^ 4
        + b4 % 256 * 256 ^ 3 + b5 % 256 * 256 ^ 2 + b6 % 256 * 256 + b7 % 256 := by
  simp [assembleBE, List.foldl]
  ring

theorem assembleBE_window (buf : List Nat) (s : Nat) (h : s + 8 ≤ buf.length)
    (hbytes : ∀ b ∈ buf, b < 256) :
    assembleBE ((buf.drop s).take 8) =
      buf.getD s 0 * 256 ^ 7 + buf.getD (s + 1) 0 * 256 ^ 6 + buf.getD (s + 2) 0 * 256 ^ 5
        + buf.getD (s + 3) 0 * 256 ^ 4 + buf.getD (s + 4) 0 * 256 ^ 3
        + buf.getD (s + 5) 0 * 256 ^ 2 + buf.getD (s + 6) 0 * 256 + buf.getD (s + 7) 0 := by
  rw [window_eq_map_range buf s 8 h]
  have h8 : List.range 8 = [0, 1, 2, 3, 4, 5, 6, 7] := by decide
  rw [h8]
  simp only [List.map_cons, List.map_nil]
  rw [assembleBE_eight]
  have hb : ∀ k, k < 8 → buf.getD (s + k) 0 % 256 = buf.getD (s + k) 0 := by
    intro k hk
    exact Nat.mod_eq_of_lt (getD_lt_of_mem_lt buf (s + k) 256 hbytes (by omega))
  rw [show s + 0 = s by omega] at *
  rw [hb 1 (by norm_num), hb 2 (by norm_num), hb 3 (by norm_num), hb 4 (by norm_num),
    hb 5 (by norm_num), hb 6 (by norm_num), hb 7 (by norm_num)]
  have hs : buf.getD s 0 % 256 = buf.getD s 0 := by
    exact Nat.mod_eq_of_lt (getD_lt_of_mem_lt buf s 256 hbytes (by omega))
  rw [hs]

theorem toBytesBE_eight (v : Nat) :
    toBytesBE 8 v =
      [v / 256 ^ 7 % 256, v / 256 ^ 6 % 256, v / 256 ^ 5 % 256, v / 256 ^ 4 % 256,
        v / 256 ^ 3 % 256, v / 256 ^ 2 % 256, v / 256 % 256, v % 256] := by
  simp [toBytesBE, Nat.div_div_eq_div_mul]

/-! ### Round-trip helpers -/

theorem decode_encode_eq (A dest buf0 : List Nat)
    (hA : ∀ v ∈ A, v < 2 ^ 64) (hdest : dest.length = A.length)
    (hbuf0 : buf0.length = A.length * 8) :
    (copyByteToLong (copyLongToByte A 0 buf0 0 (A.length : Int)).2
        0 dest 0 (A.length : Int)).2 = A := by
  have henc : (copyLongToByte A 0 buf0 0 (A.length : Int)).2 =
      encodeCore A 0 buf0 0 A.length := by
    unfold copyLongToByte
    rw [if_neg (by omega)]
    simp
  rw [henc]
  have hElen : (encodeCore A 0 buf0 0 A.length).length = buf0.length :=
    length_encodeCore A buf0 0 0 A.length (by omega) (by omega)
  unfold copyByteToLong
  rw [if_neg (by omega)]
  simp only
  apply List.ext_getElem?
  intro j
  by_cases hj : j < A.length
  · have hmid := decodeCore_getElem_mid (encodeCore A 0 buf0 0 A.length) dest
      0 0 A.length j (by omega) hj
    rw [Nat.zero_add, Nat.zero_add] at hmid
    have hsimp : (Int.toNat 0 : Nat) = 0 := rfl
    have hlen : ((A.length : Int)).toNat = A.length := by omega
    rw [hsimp, hlen]
    rw [hmid]
    have hbytes := encodeCore_bytes A buf0 0 0 A.length j (by omega) (by omega) hj
    rw [Nat.zero_add, Nat.zero_add] at hbytes
    rw [hbytes]
    have hlt : A.getD j 0 < 256 ^ 8 := by
      have h64 := getD_lt_of_mem_lt A j (2 ^ 64) hA hj
      norm_num at h64 ⊢
      exact h64
    rw [assembleBE_toBytesBE 8 _ hlt]
    simp [List.getD_eq_getElem?_getD, List.getElem?_eq_getElem hj]
  · have hlen : ((A.length : Int)).toNat = A.length := by omega
    rw [show (Int.toNat 0 : Nat) = 0 from rfl, hlen]
    rw [List.getElem?_eq_none, List.getElem?_eq_none]
    · omega
    · rw [length_decodeCore _ _ _ _ _ (by omega)]
      omega

theorem encode_decode_eq (B dest buf0 : List Nat) (n : Nat)
    (hB : B.length = n * 8) (hbytes : ∀ b ∈ B, b < 256)
    (hdest : dest.length = n) (hbuf0 : buf0.length = n * 8) :
    (copyLongToByte (copyByteToLong B 0 dest 0 (n : Int)).2 0 buf0 0 (n : Int)).2 = B := by
  have hdec : (copyByteToLong B 0 dest 0 (n : Int)).2 = decodeCore B 0 dest 0 n := by
    unfold copyByteToLong
    rw [if_neg (by omega)]
    simp
  rw [hdec]
  have hDlen : (decodeCore B 0 dest 0 n).length = dest.length :=
    length_decodeCore B dest 0 0 n (by omega)
  unfold copyLongToByte
  rw [if_neg (by omega)]
  simp only
  rw [show (Int.toNat 0 : Nat) = 0 from rfl, show ((n : Int)).toNat = n by omega]
  have hRlen : (encodeCore (decodeCore B 0 dest 0 n) 0 buf0 0 n).length = buf0.length :=
    length_encodeCore _ buf0 0 0 n (by omega) (by omega)
  apply List.ext_getElem?
  intro j
  by_cases hj : j < n * 8
  · have hi : j / 8 < n := by omega
    have hk : j % 8 < 8 := by omega
    have hblock := encodeCore_bytes (decodeCore B 0 dest 0 n) buf0 0 0 n (j / 8)
      (by omega) (by omega) hi
    rw [Nat.zero_add, Nat.zero_add] at hblock
    have hmid := decodeCore_getElem_mid B dest 0 0 n (j / 8) (by omega) hi
    rw [Nat.zero_add, Nat.zero_add] at hmid
    have hgetD : (decodeCore B 0 dest 0 n).getD (j / 8) 0 =
        assembleBE ((B.drop (j / 8 * 8)).take 8) := by
      rw [List.getD_eq_getElem?_getD, hmid]
      rfl
    rw [hgetD] at hblock
    have hw8 : ((B.drop (j / 8 * 8)).take 8).length = 8 := by
      simp
      omega
    have hwbytes : ∀ b ∈ (B.drop (j / 8 * 8)).take 8, b < 256 := by
      intro b hb
      exact hbytes b (List.mem_of_mem_drop (List.mem_of_mem_take hb))
    have hroundw : toBytesBE 8 (assembleBE ((B.drop (j / 8 * 8)).take 8)) =
        (B.drop (j / 8 * 8)).take 8 := by
      have h := toBytesBE_assembleBE ((B.drop (j / 8 * 8)).take 8) hwbytes
      rw [hw8] at h
      exact h
    rw [hroundw] at hblock
    have hRj : (((encodeCore (decodeCore B 0 dest 0 n) 0 buf0 0 n).drop
        (j / 8 * 8)).take 8)[j % 8]? =
        (encodeCore (decodeCore B 0 dest 0 n) 0 buf0 0 n)[j]? := by
      rw [List.getElem?_take_of_lt hk, List.getElem?_drop]
      congr 1
      omega
    have hBj : (((B.drop (j / 8 * 8)).take 8))[j % 8]? = B[j]? := by
      rw [List.getElem?_take_of_lt hk, List.getElem?_drop]
      congr 1
      omega
    rw [← hRj, ← hBj, hblock]
  · rw [List.getElem?_eq_none, List.getElem?_eq_none]
    · omega
    · omega

/-! ### The claims -/

/-- C1: for every byte buffer, every byteStart, destStart and len satisfying
the bounds preconditions of section 4.1, and for each i in [0, len), the
element written at index destStart + i of the destination numeric array by
copyByteToLong equals the big-endian reassembly of the 8 consecutive bytes
of the source buffer beginning at byteStart + i * 8, with the most
significant byte at the lowest address. -/
theorem C1_decode_big_endian (buf dest : List Nat) (byteStart destStart len : Int)
    (i : Nat)
    (hbytes : ∀ b ∈ buf, b < 256)
    (hbs : 0 ≤ byteStart) (hlen : 0 ≤ len)
    (hbuf : byteStart + len * 8 ≤ (buf.length : Int))
    (hds : 0 ≤ destStart) (hdest : destStart + len ≤ (dest.length : Int))
    (hi : (i : Int) < len) :
    ((copyByteToLong buf byteStart dest destStart len).2)[destStart.toNat + i]? =
      some (buf.getD (byteStart.toNat + i * 8) 0 * 256 ^ 7
        + buf.getD (byteStart.toNat + i * 8 + 1) 0 * 256 ^ 6
        + buf.getD (byteStart.toNat + i * 8 + 2) 0 * 256 ^ 5
        + buf.getD (byteStart.toNat + i * 8 + 3) 0 * 256 ^ 4
        + buf.getD (byteStart.toNat + i * 8 + 4) 0 * 256 ^ 3
        + buf.getD (byteStart.toNat + i * 8 + 5) 0 * 256 ^ 2
        + buf.getD (byteStart.toNat + i * 8 + 6) 0 * 256
        + buf.getD (byteStart.toNat + i * 8 + 7) 0) := by
  unfold copyByteToLong
  rw [if_neg (by omega)]
  have hmid := decodeCore_getElem_mid buf dest byteStart.toNat destStart.toNat len.toNat i
    (by omega) (by omega)
  rw [hmid]
  rw [assembleBE_window buf (byteStart.toNat + i * 8) (by omega) hbytes]

/-- C1 witness: decoding the single element of the buffer 01 02 03 04 05 06
07 08 at offsets 0 writes 0x0102030405060708 at index 0. -/
theorem C1_decode_big_endian_witness :
    ((copyByteToLong [1, 2, 3, 4, 5, 6, 7, 8] 0 [0] 0 1).2)[(0 : Int).toNat + 0]? =
      some ([1, 2, 3, 4, 5, 6, 7, 8].getD ((0 : Int).toNat + 0 * 8) 0 * 256 ^ 7
        + [1, 2, 3, 4, 5, 6, 7, 8].getD ((0 : Int).toNat + 0 * 8 + 1) 0 * 256 ^ 6
        + [1, 2, 3, 4, 5, 6, 7, 8].getD ((0 : Int).toNat + 0 * 8 + 2) 0 * 256 ^ 5
        + [1, 2, 3, 4, 5, 6, 7, 8].getD ((0 : Int).toNat + 0 * 8 + 3) 0 * 256 ^ 4
        + [1, 2, 3, 4, 5, 6, 7, 8].getD ((0 : Int).toNat + 0 * 8 + 4) 0 * 256 ^ 3
        + [1, 2, 3, 4, 5, 6, 7, 8].getD ((0 : Int).toNat + 0 * 8 + 5) 0 * 256 ^ 2
        + [1, 2, 3, 4, 5, 6, 7, 8].getD ((0 : Int).toNat + 0 * 8 + 6) 0 * 256
        + [1, 2, 3, 4, 5, 6, 7, 8].getD ((0 : Int).toNat + 0 * 8 + 7) 0) :=
  C1_decode_big_endian [1, 2, 3, 4, 5, 6, 7, 8] [0] 0 0 1 0
    (by decide) (by decide) (by decide) (by decide) (by decide) (by decide) (by decide)

/-- C2: for every numeric array, every arrayStart, byteStart and len
satisfying the bounds preconditions of section 4.2, and for each i in
[0, len), the 8 bytes written by copyLongToByte at byteStart + i * 8 of the
destination buffer equal the big-endian decomposition of the element at
arrayStart + i, most significant byte first.  Instantiated at the single
element 0x0102030405060708 and offsets 0 this yields the bytes
01 02 03 04 05 06 07 08 in that order, which is the witness theorem. -/
theorem C2_encode_big_endian (arr buf : List Nat) (arrayStart byteStart len : Int)
    (i : Nat)
    (has : 0 ≤ arrayStart) (hlen : 0 ≤ len)
    (harr : arrayStart + len ≤ (arr.length : Int))
    (hbs : 0 ≤ byteStart) (hbuf : byteStart + len * 8 ≤ (buf.length : Int))
    (hi : (i : Int) < len) :
    (((copyLongToByte arr arrayStart buf byteStart len).2).drop
        (byteStart.toNat + i * 8)).take 8 =
      [arr.getD (arrayStart.toNat + i) 0 / 256 ^ 7 % 256,
        arr.getD (arrayStart.toNat + i) 0 / 256 ^ 6 % 256,
        arr.getD (arrayStart.toNat + i) 0 / 256 ^ 5 % 256,
        arr.getD (arrayStart.toNat + i) 0 / 256 ^ 4 % 256,
        arr.getD (arrayStart.toNat + i) 0 / 256 ^ 3 % 256,
        arr.getD (arrayStart.toNat + i) 0 / 256 ^ 2 % 256,
        arr.getD (arrayStart.toNat + i) 0 / 256 % 256,
        arr.getD (arrayStart.toNat + i) 0 % 256] := by
  unfold copyLongToByte
  rw [if_neg (by omega)]
  have hb := encodeCore_bytes arr buf arrayStart.toNat byteStart.toNat len.toNat i
    (by omega) (by omega) (by omega)
  rw [hb]
  exact toBytesBE_eight _

/-- C2 witness: the byte-order fixed point of section 8: encoding the single
element 0x0102030405060708 at offsets 0 yields the bytes 01 02 03 04 05 06
07 08, most significant byte first. -/
theorem C2_encode_big_endian_witness :
    (((copyLongToByte [72623859790382856] 0 (List.replicate 8 0) 0 1).2).drop
        ((0 : Int).toNat + 0 * 8)).take 8 = [1, 2, 3, 4, 5, 6, 7, 8] := by
  have h := C2_encode_big_endian [72623859790382856] (List.replicate 8 0) 0 0 1 0
    (by decide) (by decide) (by decide) (by decide) (by decide) (by decide)
  rw [h]
  norm_num

/-- C3: round trip.  For every numeric array A of 64-bit values of length n
and every destination array of length n, decoding the encoding of A at
offsets 0 with count n recovers A exactly. -/
theorem C3_round_trip (A dest : List Nat)
    (hA : ∀ v ∈ A, v < 2 ^ 64) (hdest : dest.length = A.length) :
    (copyByteToLong
        (copyLongToByte A 0 (List.replicate (A.length * 8) 0) 0 (A.length : Int)).2
        0 dest 0 (A.length : Int)).2 = A :=
  decode_encode_eq A dest _ hA hdest (by simp)

/-- C3 witness: the two-element array [1, 2 to the 63rd] survives the
encode-then-decode round trip. -/
theorem C3_round_trip_witness :
    (copyByteToLong
        (copyLongToByte [1, 9223372036854775808] 0
          (List.replicate ([1, 9223372036854775808].length * 8) 0) 0
          (([1, 9223372036854775808].length : Nat) : Int)).2
        0 [0, 0] 0 (([1, 9223372036854775808].length : Nat) : Int)).2 =
      [1, 9223372036854775808] :=
  C3_round_trip [1, 9223372036854775808] [0, 0] (by decide) (by decide)

/-- C4: round-trip inverse.  For every byte buffer B of length exactly
n * 8, encoding the decoding of B at offsets 0 with count n reproduces B
byte for byte. -/
theorem C4_round_trip_inverse (B dest : List Nat) (n : Nat)
    (hB : B.length = n * 8) (hbytes : ∀ b ∈ B, b < 256)
    (hdest : dest.length = n) :
    (copyLongToByte (copyByteToLong B 0 dest 0 (n : Int)).2 0
        (List.replicate (n * 8) 0) 0 (n : Int)).2 = B :=
  encode_decode_eq B dest _ n hB hbytes hdest (by simp)

/-- C4 witness: the 8-byte buffer 01 02 03 04 05 06 07 08 survives the
decode-then-encode round trip with n = 1. -/
theorem C4_round_trip_inverse_witness :
    (copyLongToByte (copyByteToLong [1, 2, 3, 4, 5, 6, 7, 8] 0 [0] 0 ((1 : Nat) : Int)).2 0
        (List.replicate (1 * 8) 0) 0 ((1 : Nat) : Int)).2 = [1, 2, 3, 4, 5, 6, 7, 8] :=
  C4_round_trip_inverse [1, 2, 3, 4, 5, 6, 7, 8] [0] 1 (by decide) (by decide) (by decide)

/-- C7: negative-value fidelity.  The decode side widens every byte to its
unsigned 8-bit value before the shift-and-or composition (see assembleBE),
so for every 64-bit bit pattern v, in particular every v with the sign bit
set, decoding the encoding of v yields exactly v; no byte with its high
bit set corrupts higher-order bytes. -/
theorem C7_sign_bit_round_trip (v : Nat) (hv : v < 2 ^ 64) :
    (copyByteToLong (copyLongToByte [v] 0 (List.replicate 8 0) 0 1).2
        0 [0] 0 1).2 = [v] := by
  have h := decode_encode_eq [v] [0] (List.replicate 8 0)
    (by simpa using hv) (by simp) (by simp)
  simpa using h

/-- C7 witness: the value 2 to the 63rd, whose sign bit is set, survives
the round trip bit for bit. -/
theorem C7_sign_bit_round_trip_witness :
    (copyByteToLong (copyLongToByte [9223372036854775808] 0 (List.replicate 8 0) 0 1).2
        0 [0] 0 1).2 = [9223372036854775808] :=
  C7_sign_bit_round_trip 9223372036854775808 (by norm_num)

/-- C5: raises-iff with a single error kind.  Decode fails with OutOfBounds
exactly when byteStart is negative, len is negative, byteStart + len * 8
exceeds the byte-buffer length, destStart is negative, or the destination
array holds fewer than destStart + len elements; encode fails with
OutOfBounds exactly when arrayStart is negative, len is negative,
arrayStart + len exceeds the source array length, byteStart is negative, or
the destination buffer holds fewer than byteStart + len * 8 bytes; the
CopyError type has no other inhabitant, so no other error kind is ever
raised; and decoding one element out of a 4-byte buffer fails with
OutOfBounds. -/
theorem C5_out_of_bounds_iff :
    (∀ (buf dest : List Nat) (byteStart destStart len : Int),
        (copyByteToLong buf byteStart dest destStart len).1 = some CopyError.outOfBounds ↔
          (byteStart < 0 ∨ len < 0 ∨ (buf.length : Int) < byteStart + len * 8
            ∨ destStart < 0 ∨ (dest.length : Int) < destStart + len))
    ∧ (∀ (arr buf : List Nat) (arrayStart byteStart len : Int),
        (copyLongToByte arr arrayStart buf byteStart len).1 = some CopyError.outOfBounds ↔
          (arrayStart < 0 ∨ len < 0 ∨ (arr.length : Int) < arrayStart + len
            ∨ byteStart < 0 ∨ (buf.length : Int) < byteStart + len * 8))
    ∧ (∀ e : CopyError, e = CopyError.outOfBounds)
    ∧ (copyByteToLong [0, 0, 0, 0] 0 [0] 0 1).1 = some CopyError.outOfBounds := by
  refine ⟨?_, ?_, ?_, ?_⟩
  · intro buf dest byteStart destStart len
    unfold copyByteToLong
    split <;> simp_all
  · intro arr buf arrayStart byteStart len
    unfold copyLongToByte
    split <;> simp_all
  · intro e
    cases e
    rfl
  · decide

/-- C6: atomicity on error.  Bounds are validated before any write, so
whenever either operation reports an error the destination array or buffer
is returned completely unchanged; no partial output is ever produced. -/
theorem C6_atomic_on_error :
    (∀ (buf dest : List Nat) (byteStart destStart len : Int) (e : CopyError),
        (copyByteToLong buf byteStart dest destStart len).1 = some e →
        (copyByteToLong buf byteStart dest destStart len).2 = dest)
    ∧ (∀ (arr buf : List Nat) (arrayStart byteStart len : Int) (e : CopyError),
        (copyLongToByte arr arrayStart buf byteStart len).1 = some e →
        (copyLongToByte arr arrayStart buf byteStart len).2 = buf) := by
  constructor
  · intro buf dest byteStart destStart len e h
    by_cases hc : byteStart < 0 ∨ len < 0 ∨ (buf.length : Int) < byteStart + len * 8
        ∨ destStart < 0 ∨ (dest.length : Int) < destStart + len
    · unfold copyByteToLong
      rw [if_pos hc]
    · unfold copyByteToLong at h
      rw [if_neg hc] at h
      simp at h
  · intro arr buf arrayStart byteStart len e h
    by_cases hc : arrayStart < 0 ∨ len < 0 ∨ (arr.length : Int) < arrayStart + len
        ∨ byteStart < 0 ∨ (buf.length : Int) < byteStart + len * 8
    · unfold copyLongToByte
      rw [if_pos hc]
    · unfold copyLongToByte at h
      rw [if_neg hc] at h
      simp at h

/-- C6 witness: a decode that fails its bounds check (4-byte buffer, one
requested element) leaves the destination array [7] untouched. -/
theorem C6_atomic_on_error_witness :
    (copyByteToLong [0, 0, 0, 0] 0 [7] 0 1).2 = [7] :=
  C6_atomic_on_error.1 [0, 0, 0, 0] [7] 0 0 1 CopyError.outOfBounds (by decide)

/-- C8: zero-length no-op.  With len = 0 both operations succeed for every
buffer and every array, and return the destination exactly as it was
given; nothing is produced or modified. -/
theorem C8_zero_length_noop :
    (∀ buf dest : List Nat, copyByteToLong buf 0 dest 0 0 = (none, dest))
    ∧ (∀ arr buf : List Nat, copyLongToByte arr 0 buf 0 0 = (none, buf)) := by
  constructor
  · intro buf dest
    unfold copyByteToLong
    rw [if_neg (by omega)]
    simp [decodeCore]
  · intro arr buf
    unfold copyLongToByte
    rw [if_neg (by omega)]
    simp [encodeCore]

/-- C9: frame condition.  On every successful call, decode keeps the
destination array length and every element outside [destStart,
destStart + len); encode keeps the destination buffer length and every
byte outside [byteStart, byteStart + len * 8).  The sources are values
that the operations only read, and the model is a pure function of its
arguments, so there is no other side effect or persistent state. -/
theorem C9_frame :
    (∀ (buf dest : List Nat) (byteStart destStart len : Int),
        (copyByteToLong buf byteStart dest destStart len).1 = none →
        ((copyByteToLong buf byteStart dest destStart len).2).length = dest.length ∧
        ∀ j : Nat, (j < destStart.toNat ∨ destStart.toNat + len.toNat ≤ j) →
          ((copyByteToLong buf byteStart dest destStart len).2)[j]? = dest[j]?)
    ∧ (∀ (arr buf : List Nat) (arrayStart byteStart len : Int),
        (copyLongToByte arr arrayStart buf byteStart len).1 = none →
        ((copyLongToByte arr arrayStart buf byteStart len).2).length = buf.length ∧
        ∀ j : Nat, (j < byteStart.toNat ∨ byteStart.toNat + len.toNat * 8 ≤ j) →
          ((copyLongToByte arr arrayStart buf byteStart len).2)[j]? = buf[j]?) := by
  constructor
  · intro buf dest byteStart destStart len h
    by_cases hc : byteStart < 0 ∨ len < 0 ∨ (buf.length : Int) < byteStart + len * 8
        ∨ destStart < 0 ∨ (dest.length : Int) < destStart + len
    · unfold copyByteToLong at h
      rw [if_pos hc] at h
      simp at h
    · unfold copyByteToLong
      rw [if_neg hc]
      constructor
      · exact length_decodeCore _ _ _ _ _ (by omega)
      · intro j hj
        exact decodeCore_getElem_frame _ _ _ _ _ _ (by omega) hj
  · intro arr buf arrayStart byteStart len h
    by_cases hc : arrayStart < 0 ∨ len < 0 ∨ (arr.length : Int) < arrayStart + len
        ∨ byteStart < 0 ∨ (buf.length : Int) < byteStart + len * 8
    · unfold copyLongToByte at h
      rw [if_pos hc] at h
      simp at h
    · unfold copyLongToByte
      rw [if_neg hc]
      constructor
      · exact length_encodeCore _ _ _ _ _ (by omega) (by omega)
      · intro j hj
        exact encodeCore_getElem_frame _ _ _ _ _ _ (by omega) (by omega) hj

/-- C9 witness: a successful one-element decode into [9, 10] keeps the
array length 2 and keeps the untouched element at index 1. -/
theorem C9_frame_witness :
    ((copyByteToLong [1, 2, 3, 4, 5, 6, 7, 8] 0 [9, 10] 0 1).2).length = 2 ∧
    ((copyByteToLong [1, 2, 3, 4, 5, 6, 7, 8] 0 [9, 10] 0 1).2)[1]? = some 10 := by
  have h := C9_frame.1 [1, 2, 3, 4, 5, 6, 7, 8] [9, 10] 0 0 1 (by decide)
  refine ⟨h.1, ?_⟩
  have h2 := h.2 1 (Or.inr (by decide))
  rw [h2]
  rfl

/-- C10: implicit 32-bit interface domain.  The JNI signatures pass every
offset and the element count as a Java int, modelled by isJint, so each
such argument lies in [-2 to the 31st, 2 to the 31st - 1] and at most
2 to the 31st - 1 elements can be requested per call; and the required
byte count len * 8, when computed in the same 32-bit signed type (wrap32),
differs from the mathematical product by a multiple of 2 to the 32nd and
actually wraps for every len above 2 to the 28th - 1. -/
theorem C10_jint_interface (byteStart destStart len : Int)
    (h : isJint byteStart ∧ isJint destStart ∧ isJint len) :
    (-(2 ^ 31) ≤ byteStart ∧ byteStart ≤ 2 ^ 31 - 1)
    ∧ (-(2 ^ 31) ≤ destStart ∧ destStart ≤ 2 ^ 31 - 1)
    ∧ (-(2 ^ 31) ≤ len ∧ len ≤ 2 ^ 31 - 1)
    ∧ (2 ^ 28 - 1 < len →
        wrap32 (len * 8) ≠ len * 8 ∧ (len * 8 - wrap32 (len * 8)) % 2 ^ 32 = 0) := by
  obtain ⟨h1, h2, h3⟩ := h
  unfold isJint at h1 h2 h3
  refine ⟨⟨h1.1, by omega⟩, ⟨h2.1, by omega⟩, ⟨h3.1, by omega⟩, ?_⟩
  intro hbig
  unfold wrap32
  constructor
  · have hlow : (0 : Int) ≤ (len * 8 + 2 ^ 31) % 2 ^ 32 := Int.emod_nonneg _ (by norm_num)
    have hhigh : (len * 8 + 2 ^ 31) % 2 ^ 32 < 2 ^ 32 :=
      Int.emod_lt_of_pos _ (by norm_num)
    intro heq
    omega
  · omega

/-- C10 witness: at byteStart = 0, destStart = 0 and len = 2 to the 28th,
all three arguments are Java ints, yet the 32-bit product len * 8
overflows and wraps. -/
theorem C10_jint_interface_witness :
    ((-(2 ^ 31) : Int) ≤ 0 ∧ (0 : Int) ≤ 2 ^ 31 - 1)
    ∧ ((-(2 ^ 31) : Int) ≤ 0 ∧ (0 : Int) ≤ 2 ^ 31 - 1)
    ∧ ((-(2 ^ 31) : Int) ≤ 268435456 ∧ (268435456 : Int) ≤ 2 ^ 31 - 1)
    ∧ ((2 : Int) ^ 28 - 1 < 268435456 →
        wrap32 (268435456 * 8) ≠ 268435456 * 8
          ∧ ((268435456 : Int) * 8 - wrap32 (268435456 * 8)) % 2 ^ 32 = 0) :=
  C10_jint_interface 0 0 268435456 (by refine ⟨⟨?_, ?_⟩, ⟨?_, ?_⟩, ⟨?_, ?_⟩⟩ <;> decide)

end HDFNativeData
